import Mathlib

/-!
Verification of `model_comparison.py`: a benchmarking harness that queries two
HTTP language-model backends ("runner" and "ollama"), measures latency and
estimated token throughput for a fixed prompt list, and aggregates comparative
statistics.

Embedding conventions: Python strings are `List Char`; Python ints are `Nat`;
Python floats are exact rationals `ℚ` (the single irrational operation, the
square root inside `statistics.stdev`, is modelled over `ℝ`).  The HTTP
transport is an external effect, modelled as an explicit outcome value handed
to the sampler; wall-clock timestamps are part of that outcome.
-/

namespace ModelComparison

/-- The word-character class `\w` of the source's regex, in its ASCII reading:
letters, digits and the underscore. -/
def isWordChar (c : Char) : Bool := c.isAlpha || c.isDigit || c = '_'

/-- The whitespace class `\s` / the separator set of Python's `str.split()`. -/
def isSpaceChar (c : Char) : Bool :=
  c = ' ' || c = '\t' || c = '\n' || c = '\r' || c = '\x0b' || c = '\x0c'

/-- One left-to-right scan emulating `re.findall(r'\w+|[^\w\s]', text)` and
counting the matches: a maximal run of word characters is one match, any other
non-space character is one single-character match, and whitespace never
matches.  `inWord` records whether the previous character extended a word
match. -/
def tokenScan : List Char → Bool → Nat
  | [], _ => 0
  | c :: rest, inWord =>
    if isWordChar c then (if inWord then 0 else 1) + tokenScan rest true
    else if isSpaceChar c then tokenScan rest false
    else 1 + tokenScan rest false

/-- Function `count_tokens` from the source: the number of matches of
`re.findall(r'\w+|[^\w\s]', text)`. -/
def count_tokens (text : List Char) : Nat := tokenScan text false

/-- Spec-side reading of the tokenizer: the number of maximal runs of word
characters, computed by splitting the text at every non-word character and
counting the nonempty fragments. -/
def maximalWordRuns (text : List Char) : Nat :=
  ((text.splitOnP (fun c => !isWordChar c)).filter (fun g => !g.isEmpty)).length

/-- Spec-side reading of the tokenizer: the number of characters that are
neither word characters nor whitespace (each is a single punctuation token). -/
def punctCount (text : List Char) : Nat :=
  (text.filter (fun c => !isWordChar c && !isSpaceChar c)).length

/-- Does the text start with a word character?  (Auxiliary notion for the
tokenizer-equivalence induction.) -/
def headIsWord : List Char → Bool
  | [] => false
  | c :: _ => isWordChar c

/-- Python's `str.split()` with no argument: split on runs of whitespace,
discarding empty fragments.  `acc` holds the characters of the fragment being
built, in reverse. -/
def pySplitAux : List Char → List Char → List (List Char)
  | [], acc => if acc.isEmpty then [] else [acc.reverse]
  | c :: rest, acc =>
    if isSpaceChar c then
      if acc.isEmpty then pySplitAux rest [] else acc.reverse :: pySplitAux rest []
    else pySplitAux rest (c :: acc)

/-- Python's `text.split()`. -/
def pySplit (cs : List Char) : List (List Char) := pySplitAux cs []

/-- Python's `' '.join(parts)`. -/
def joinSpace : List (List Char) → List Char
  | [] => []
  | [w] => w
  | w :: ws => w ++ ' ' :: joinSpace ws

/-- Python's `text.replace('\n', ' ')`. -/
def replaceNl (cs : List Char) : List Char :=
  cs.map (fun c => if c = '\n' then ' ' else c)

/-- The ellipsis marker appended to truncated previews. -/
def ellipsisMarker : List Char := "...".toList

/-- The preview construction in `call_model`:
`' '.join(response_text.replace('\n', ' ').split())[:80]`, with the marker
`"..."` appended when `len(response_text) > 80` (note: the length test is on
the original response text, not on the collapsed preview). -/
def previewOf (responseText : List Char) : List Char :=
  let preview := (joinSpace (pySplit (replaceNl responseText))).take 80
  if 80 < responseText.length then preview ++ ellipsisMarker else preview

/-- The spec's collapsing step in isolation: collapse every whitespace run to
a single space and trim leading/trailing whitespace. -/
def collapsedTrimmed (text : List Char) : List Char := joinSpace (pySplit text)

/-- The preview as claim C9 words it: collapse whitespace runs, trim, truncate
to 80 characters, and append the ellipsis marker if and only if the truncation
actually shortened the collapsed text. -/
def claimPreview (text : List Char) : List Char :=
  let collapsed := collapsedTrimmed text
  if 80 < collapsed.length then collapsed.take 80 ++ ellipsisMarker
  else collapsed

/-- Python's `round` to an integer on an exact rational: round half to even. -/
def pyRound (q : ℚ) : ℤ :=
  if q - ⌊q⌋ < 1/2 then ⌊q⌋
  else if 1/2 < q - ⌊q⌋ then ⌊q⌋ + 1
  else if ⌊q⌋ % 2 = 0 then ⌊q⌋ else ⌊q⌋ + 1

/-- Python's `round(x, 2)` on an exact rational. -/
def round2 (q : ℚ) : ℚ := (pyRound (q * 100) : ℚ) / 100

/-- The outcome of the blocking HTTP POST inside `call_model`: either a
response body and HTTP status observed after `elapsed` wall-clock
milliseconds, or a raised exception carrying an error message (connection
error, timeout beyond the fixed 60-second bound, ...). -/
inductive HttpOutcome where
  | success (text : List Char) (status : Nat) (elapsed : Nat)
  | failure (err : List Char)

/-- The error response text `f"Error: {str(e)}"` substituted on an exception. -/
def errorText (err : List Char) : List Char := "Error: ".toList ++ err

/-- The dict returned by `call_model`. -/
structure Frag where
  elapsed_ms : Nat
  status_code : Nat
  preview : List Char
  token_count : Nat
  tokens_per_second : ℚ
deriving Repr, DecidableEq

/-- Function `call_model` from the source, as a function of the transport outcome.  On
a response: `elapsed_ms` is the measured wall time, tokens are counted on the
body, and the throughput `token_count / (elapsed_ms / 1000)` (guarded by
`elapsed_ms > 0`) is rounded to two decimals in the returned dict.  On any
exception: every numeric field is zero and the response text is replaced by
the error description.  The preview is built from the response text either
way. -/
def call_model (o : HttpOutcome) : Frag :=
  match o with
  | .success text status elapsed =>
    let token_count := count_tokens text
    let tps : ℚ :=
      if 0 < elapsed then (token_count : ℚ) / ((elapsed : ℚ) / 1000) else 0
    { elapsed_ms := elapsed
      status_code := status
      preview := previewOf text
      token_count := token_count
      tokens_per_second := round2 tps }
  | .failure err =>
    { elapsed_ms := 0
      status_code := 0
      preview := previewOf (errorText err)
      token_count := 0
      tokens_per_second := round2 0 }

/-- One observation appended by the scheduler: the dict built by `run_test`.
The capture timestamp (`datetime.now().isoformat()`), pure wall-clock
metadata read by no computation, is not modelled. -/
structure RunRecord where
  model : String
  prompt_index : Nat
  prompt : List Char
  run_index : Nat
  elapsed_ms : Nat
  status_code : Nat
  token_count : Nat
  tokens_per_second : ℚ
deriving Repr, DecidableEq

/-- Python's `min` over a list, seeded with the head (0 on the empty list, on
which the original raises). -/
def listMin : List ℚ → ℚ
  | [] => 0
  | x :: xs => xs.foldl min x

/-- Python's `max` over a list, seeded with the head (0 on the empty list). -/
def listMax : List ℚ → ℚ
  | [] => 0
  | x :: xs => xs.foldl max x

/-- Python's `statistics.mean`. -/
def listMean (xs : List ℚ) : ℚ := xs.sum / xs.length

/-- Python's `statistics.median`: the middle element of the sorted data, or the mean of
the two middle elements when the length is even (0 on the empty list, on which
the original raises). -/
def pyMedian (xs : List ℚ) : ℚ :=
  let s := xs.mergeSort (fun a b => decide (a ≤ b))
  if xs.length % 2 = 1 then s.getD (xs.length / 2) 0
  else (s.getD (xs.length / 2 - 1) 0 + s.getD (xs.length / 2) 0) / 2

/-- The sample variance underlying `statistics.stdev` (denominator `n - 1`). -/
def sampleVariance (xs : List ℚ) : ℚ :=
  (xs.map (fun x => (x - listMean xs) ^ 2)).sum / ((xs.length : ℚ) - 1)

/-- The rounding `pyRound` transported to `ℝ`, for the one statistic whose value is
irrational. -/
noncomputable def pyRoundR (x : ℝ) : ℤ :=
  if x - ⌊x⌋ < 1/2 then ⌊x⌋
  else if 1/2 < x - ⌊x⌋ then ⌊x⌋ + 1
  else if ⌊x⌋ % 2 = 0 then ⌊x⌋ else ⌊x⌋ + 1

/-- Python's `round(x, 2)` on `ℝ`. -/
noncomputable def round2R (x : ℝ) : ℝ := (pyRoundR (x * 100) : ℝ) / 100

/-- The dict returned by `calculate_stats` on nonempty input.  `stdev_ms`
lives in `ℝ` because `statistics.stdev` takes a square root; every other
statistic is rational. -/
structure Stats where
  count : Nat
  total_ms : ℚ
  min_ms : ℚ
  max_ms : ℚ
  avg_ms : ℚ
  median_ms : ℚ
  stdev_ms : ℝ
  avg_tokens : ℚ
  avg_tokens_per_second : ℚ
  median_tokens_per_second : ℚ

/-- Function `calculate_stats` from the source.  The early return of an empty dict on empty input
is modelled as `none`; on nonempty input every statistic of the returned dict
is built exactly as in the source, including the guard that reports a standard
deviation of 0 unless at least two records are present. -/
noncomputable def calculate_stats (data : List RunRecord) : Option Stats :=
  match data with
  | [] => none
  | d :: ds =>
    let times : List ℚ := (d :: ds).map (fun r => (r.elapsed_ms : ℚ))
    let tokens : List ℚ := (d :: ds).map (fun r => (r.token_count : ℚ))
    let tps : List ℚ := (d :: ds).map (fun r => r.tokens_per_second)
    some
      { count := times.length
        total_ms := times.sum
        min_ms := listMin times
        max_ms := listMax times
        avg_ms := round2 (listMean times)
        median_ms := round2 (pyMedian times)
        stdev_ms :=
          if 1 < times.length then round2R (Real.sqrt (sampleVariance times))
          else 0
        avg_tokens := round2 (listMean tokens)
        avg_tokens_per_second := round2 (listMean tps)
        median_tokens_per_second := round2 (pyMedian tps) }

/-- The time ratio of `print_results_table` (line 170):
`round(ollama_avg_time / runner_avg_time, 2) if runner_avg_time > 0 else 0`. -/
def time_ratio (ollamaAvgTime runnerAvgTime : ℚ) : ℚ :=
  if 0 < runnerAvgTime then round2 (ollamaAvgTime / runnerAvgTime) else 0

/-- The token ratio of `print_results_table` (line 171), same guarded shape. -/
def token_ratio (ollamaAvgTokens runnerAvgTokens : ℚ) : ℚ :=
  if 0 < runnerAvgTokens then round2 (ollamaAvgTokens / runnerAvgTokens) else 0

/-- The throughput ratio of `print_results_table` (line 172), same guarded
shape with the roles swapped (runner over ollama, guarded on ollama). -/
def tps_ratio (runnerAvgTps ollamaAvgTps : ℚ) : ℚ :=
  if 0 < ollamaAvgTps then round2 (runnerAvgTps / ollamaAvgTps) else 0

/-- The per-prompt speedup factor of `generate_detailed_report` (line 217):
`(avg_tps['Runner'] / avg_tps['Ollama']).round(2)` — an unguarded pandas
(IEEE-754) division.  On a zero denominator the float quotient is `inf`,
`-inf` or `NaN`, never a finite number and never an exception; the absence of
a finite value is modelled as `none`. -/
def speedupFactor (runnerAvgTps ollamaAvgTps : ℚ) : Option ℚ :=
  if ollamaAvgTps ≠ 0 then some (round2 (runnerAvgTps / ollamaAvgTps)) else none

def OLLAMA_URL : String := "http://localhost:9999/chat/ollama"

def RUNNER_URL : String := "http://localhost:9999/chat/runner"

def RUNS_PER_PROMPT : Nat := 10

def WARM_UP_RUNS : Nat := 3

/-- The fixed prompt list of the configuration surface. -/
def PROMPTS : List (List Char) :=
  ["What is the capital of France?".toList,
   "List three countries in Europe and their capitals.".toList,
   "Explain the process of photosynthesis in a few sentences.".toList,
   "Compare and contrast classical and quantum computing.".toList,
   "Write a short story involving a robot, a dragon, and time travel.".toList]

/-- The transport oracle: what the network returns for a POST to a given URL
with a given prompt during the given (prompt, run) iteration.  It abstracts
the external world; the scheduler itself adds no randomness. -/
def Oracle : Type := String → List Char → Nat → Nat → HttpOutcome

/-- Function `run_test` from the source: one sampled call assembled into a full
record.  The `is_warmup` flag of the original only selects which progress
message is printed and never reaches the record, so it is not modelled. -/
def run_test (oracle : Oracle) (model_type url : String) (prompt : List Char)
    (run_index prompt_index : Nat) : RunRecord :=
  let result := call_model (oracle url prompt prompt_index run_index)
  { model := model_type
    prompt_index := prompt_index
    prompt := prompt
    run_index := run_index
    elapsed_ms := result.elapsed_ms
    status_code := result.status_code
    token_count := result.token_count
    tokens_per_second := result.tokens_per_second }

/-- Function `alternate_model_runs` from the source: on an even run index the runner
backend is called first and ollama second, on an odd run index the order is
reversed; the pair returned is always (runner record, ollama record). -/
def alternate_model_runs (oracle : Oracle) (prompt : List Char)
    (prompt_idx run_idx : Nat) : RunRecord × RunRecord :=
  if run_idx % 2 = 0 then
    let runner_result := run_test oracle "runner" RUNNER_URL prompt run_idx prompt_idx
    let ollama_result := run_test oracle "ollama" OLLAMA_URL prompt run_idx prompt_idx
    (runner_result, ollama_result)
  else
    let ollama_result := run_test oracle "ollama" OLLAMA_URL prompt run_idx prompt_idx
    let runner_result := run_test oracle "runner" RUNNER_URL prompt run_idx prompt_idx
    (runner_result, ollama_result)

/-- The observable backend call order of one measured iteration: the sequence
of `run_test` invocations made by `alternate_model_runs`, by backend name. -/
def callOrder (run_idx : Nat) : List String :=
  if run_idx % 2 = 0 then ["runner", "ollama"] else ["ollama", "runner"]

/-- The warm-up loop for one prompt: `warm` pairs of sampled calls whose
return values the source discards (they are never appended to `results`). -/
def warmupRecords (oracle : Oracle) (prompt : List Char)
    (prompt_idx warm : Nat) : List (RunRecord × RunRecord) :=
  (List.range warm).map fun i =>
    (run_test oracle "runner" RUNNER_URL prompt i prompt_idx,
     run_test oracle "ollama" OLLAMA_URL prompt i prompt_idx)

/-- The benchmarking loop of `main` over the enumerated prompt list, threading
the enumeration index: for each prompt, the warm-up results are computed and
dropped, then each measured iteration appends the runner record to
`results["runner"]` and the ollama record to `results["ollama"]`. -/
def mainLoop (oracle : Oracle) (runs warm : Nat) :
    Nat → List (List Char) → List RunRecord × List RunRecord
  | _, [] => ([], [])
  | prompt_idx, prompt :: rest =>
    let _warmup := warmupRecords oracle prompt prompt_idx warm
    let measuredRunner :=
      (List.range runs).map fun i => (alternate_model_runs oracle prompt prompt_idx i).1
    let measuredOllama :=
      (List.range runs).map fun i => (alternate_model_runs oracle prompt prompt_idx i).2
    let next := mainLoop oracle runs warm (prompt_idx + 1) rest
    (measuredRunner ++ next.1, measuredOllama ++ next.2)

/-- The results accumulated by `main`, the pair (results runner, results ollama), for
a given configuration. -/
def mainResults (oracle : Oracle) (prompts : List (List Char))
    (runs warm : Nat) : List RunRecord × List RunRecord :=
  mainLoop oracle runs warm 0 prompts

/-- The (backend, prompt) group of a record list. -/
def groupOf (recs : List RunRecord) (model : String) (prompt_idx : Nat) :
    List RunRecord :=
  recs.filter (fun r => r.model == model && r.prompt_index == prompt_idx)

lemma nonempty_filter_modifyHead_cons (x : Char) (c : List Char)
    (rest : List (List Char)) :
    (((c :: rest).modifyHead (fun g => x :: g)).filter (fun g => !g.isEmpty)).length
      = ((c :: rest).filter (fun g => !g.isEmpty)).length
        + (if c.isEmpty then 1 else 0) := by
  rcases c with _ | ⟨d, c⟩ <;> simp [List.modifyHead, List.filter]

lemma splitOnP_head_empty (t : List Char) :
    ∃ h tl, t.splitOnP (fun c => !isWordChar c) = h :: tl
      ∧ (h.isEmpty = !headIsWord t) := by
  rcases t with _ | ⟨c, r⟩
  · exact ⟨[], [], by simp [List.splitOnP_nil], by simp [headIsWord]⟩
  · rw [List.splitOnP_cons]
    by_cases hc : isWordChar c
    · obtain ⟨h, tl, heq⟩ :=
        List.exists_cons_of_ne_nil (List.splitOnP_ne_nil (fun c => !isWordChar c) r)
      refine ⟨c :: h, tl, ?_, by simp [headIsWord, hc]⟩
      simp [hc, heq, List.modifyHead]
    · refine ⟨[], r.splitOnP (fun c => !isWordChar c), ?_, by simp [headIsWord, hc]⟩
      simp [hc]

lemma tokenScan_splitOnP (t : List Char) : ∀ inWord : Bool,
    tokenScan t inWord + (if inWord && headIsWord t then 1 else 0)
      = maximalWordRuns t + punctCount t := by
  induction t with
  | nil =>
    intro inWord
    simp [tokenScan, maximalWordRuns, punctCount, headIsWord, List.splitOnP_nil]
  | cons c r ih =>
    intro inWord
    by_cases hc : isWordChar c
    · obtain ⟨h, tl, heq, hemp⟩ := splitOnP_head_empty r
      have hr := ih true
      have hmwr : maximalWordRuns (c :: r)
          = maximalWordRuns r + (if h.isEmpty then 1 else 0) := by
        unfold maximalWordRuns
        rw [List.splitOnP_cons, if_neg (by simp [hc]), heq,
          nonempty_filter_modifyHead_cons]
      have hpc : punctCount (c :: r) = punctCount r := by
        simp [punctCount, hc]
      have hts : tokenScan (c :: r) inWord
          = (if inWord then 0 else 1) + tokenScan r true := by
        simp [tokenScan, hc]
      have hhw : headIsWord (c :: r) = true := by simp [headIsWord, hc]
      rw [hts, hmwr, hpc, hhw]
      cases hw : headIsWord r <;> rw [hw] at hemp hr <;> cases inWord <;>
        simp_all <;> omega
    · by_cases hs : isSpaceChar c
      · have hr := ih false
        have hmwr : maximalWordRuns (c :: r) = maximalWordRuns r := by
          unfold maximalWordRuns
          rw [List.splitOnP_cons, if_pos (by simp [hc])]
          simp
        have hpc : punctCount (c :: r) = punctCount r := by
          simp [punctCount, hs]
        have hts : tokenScan (c :: r) inWord = tokenScan r false := by
          simp [tokenScan, hc, hs]
        have hhw : headIsWord (c :: r) = false := by simp [headIsWord, hc]
        rw [hts, hmwr, hpc, hhw]
        simpa using hr
      · have hr := ih false
        have hmwr : maximalWordRuns (c :: r) = maximalWordRuns r := by
          unfold maximalWordRuns
          rw [List.splitOnP_cons, if_pos (by simp [hc])]
          simp
        have hpc : punctCount (c :: r) = 1 + punctCount r := by
          simp [punctCount, hc, hs]
          omega
        have hts : tokenScan (c :: r) inWord = 1 + tokenScan r false := by
          simp [tokenScan, hc, hs]
        have hhw : headIsWord (c :: r) = false := by simp [headIsWord, hc]
        have hr' : tokenScan r false = maximalWordRuns r + punctCount r := by
          simpa using hr
        rw [hts, hmwr, hpc, hhw]
        cases inWord <;> simp [hr'] <;> omega

/-- C3: for every text, `count_tokens` returns the number of maximal runs of
word characters plus the number of single non-word non-space characters
(whitespace is a separator only, never a token); in particular "a b c" yields
3 tokens and "a, b." yields 4 tokens. -/
theorem count_tokens_is_words_plus_punct :
    (∀ t : List Char, count_tokens t = maximalWordRuns t + punctCount t)
      ∧ count_tokens "a b c".toList = 3 ∧ count_tokens "a, b.".toList = 4 := by
  refine ⟨fun t => ?_, by decide, by decide⟩
  simpa [count_tokens] using tokenScan_splitOnP t false

lemma round2_zero : round2 0 = 0 := by
  norm_num [round2, pyRound]

lemma joinSpace_cons (w : List Char) (ws : List (List Char)) :
    ∃ r, joinSpace (w :: ws) = w ++ r := by
  cases ws with
  | nil => exact ⟨[], by simp [joinSpace]⟩
  | cons v vs => exact ⟨' ' :: joinSpace (v :: vs), rfl⟩

lemma pySplit_replaceNl_errorText (m : List Char) :
    pySplit (replaceNl (errorText m))
      = "Error:".toList :: pySplit (replaceNl m) := rfl

lemma previewOf_errorText_take6 (m : List Char) :
    (previewOf (errorText m)).take 6 = "Error:".toList := by
  obtain ⟨r, hr⟩ := joinSpace_cons "Error:".toList (pySplit (replaceNl m))
  have hj : joinSpace (pySplit (replaceNl (errorText m))) = "Error:".toList ++ r := by
    rw [pySplit_replaceNl_errorText, hr]
  have hkey : ((("Error:".toList ++ r).take 80).take 6) = "Error:".toList := by
    rw [List.take_take]
    rw [show min 6 80 = ("Error:".toList).length from rfl, List.take_left]
  have hlen : 6 ≤ (("Error:".toList ++ r).take 80).length := by
    rw [List.length_take]
    simp
  by_cases h : 80 < (errorText m).length
  · simp only [previewOf, hj, if_pos h]
    rw [List.take_append_of_le_length hlen, hkey]
  · simp only [previewOf, hj, if_neg h]
    exact hkey

/-- C1: on any transport failure `call_model` returns the sentinel fragment —
`elapsed_ms`, `status_code`, `token_count` and `tokens_per_second` all zero —
and the preview is the collapsed-and-truncated error description, beginning
with "Error:".  `call_model` is a total function of the transport outcome, so
no exception crosses the sampler boundary. -/
theorem call_model_failure_sentinel (err : List Char) :
    (call_model (.failure err)).elapsed_ms = 0
    ∧ (call_model (.failure err)).status_code = 0
    ∧ (call_model (.failure err)).token_count = 0
    ∧ (call_model (.failure err)).tokens_per_second = 0
    ∧ (call_model (.failure err)).preview = previewOf (errorText err)
    ∧ ((call_model (.failure err)).preview).take 6 = "Error:".toList :=
  ⟨rfl, rfl, rfl, round2_zero, rfl, previewOf_errorText_take6 err⟩

lemma call_model_tps_success (text : List Char) (status elapsed : Nat)
    (h : 0 < elapsed) :
    (call_model (.success text status elapsed)).tokens_per_second
      = round2 ((count_tokens text : ℚ) / ((elapsed : ℚ) / 1000)) := by
  simp [call_model, h]

lemma round2_third : round2 (1/3) = 33/100 := by
  have harg : ((1/3 : ℚ) * 100) = 100/3 := by norm_num
  have hfl : ⌊(100/3 : ℚ)⌋ = 33 := by
    rw [Int.floor_eq_iff]
    norm_num
  rw [round2, harg, pyRound, hfl]
  rw [if_pos (by norm_num : (100/3 : ℚ) - ((33 : ℤ) : ℚ) < 1/2)]
  norm_num

/-- C4 counterexample: a 1-token body observed after 3000 ms has exact
throughput 1/3 token/s, but the record returned by `call_model` holds 33/100 —
the sampler rounds to two decimals before returning, contradicting the claim
that the stored value equals the exact ratio. -/
theorem call_model_tps_rounding_counterexample :
    (call_model (.success "a".toList 200 3000)).tokens_per_second
      ≠ ((call_model (.success "a".toList 200 3000)).token_count : ℚ)
          / (((call_model (.success "a".toList 200 3000)).elapsed_ms : ℚ) / 1000) := by
  have h1 : (call_model (.success "a".toList 200 3000)).token_count = 1 := rfl
  have h2 : (call_model (.success "a".toList 200 3000)).elapsed_ms = 3000 := rfl
  have h3 : (call_model (.success "a".toList 200 3000)).tokens_per_second = 33/100 := by
    rw [call_model_tps_success _ _ _ (by norm_num)]
    have hq : ((count_tokens "a".toList : ℚ)) / (((3000 : ℕ) : ℚ) / 1000) = 1/3 := by
      rw [show count_tokens "a".toList = 1 from rfl]
      push_cast
      norm_num
    rw [hq, round2_third]
  rw [h1, h2, h3]
  norm_num

/-- C4 amended: the `tokens_per_second` stored in the returned record is the
exact ratio `token_count / (elapsed_ms / 1000)` rounded half-to-even to two
decimal places when `elapsed_ms > 0`, and it is 0 whenever `elapsed_ms = 0`
(for any token count) as well as on every transport failure; the two-decimal
rounding happens inside the sampler itself, not only at presentation time. -/
theorem call_model_tps_amended :
    (∀ text : List Char, ∀ status elapsed : Nat, 0 < elapsed →
        (call_model (.success text status elapsed)).tokens_per_second
          = round2 ((count_tokens text : ℚ) / ((elapsed : ℚ) / 1000)))
    ∧ (∀ text : List Char, ∀ status : Nat,
        (call_model (.success text status 0)).tokens_per_second = 0)
    ∧ (∀ err : List Char, (call_model (.failure err)).tokens_per_second = 0) := by
  refine ⟨fun text status elapsed h => call_model_tps_success text status elapsed h,
    fun text status => ?_, fun _ => round2_zero⟩
  simp [call_model, round2_zero]

theorem call_model_tps_amended_witness :
    0 < 3000
    ∧ (call_model (.success "a".toList 200 3000)).tokens_per_second
        = round2 ((count_tokens "a".toList : ℚ) / ((3000 : ℚ) / 1000)) :=
  ⟨by decide, call_model_tps_amended.1 "a".toList 200 3000 (by decide)⟩

lemma replaceNl_cons (c : Char) (r : List Char) :
    replaceNl (c :: r) = (if c = '\n' then ' ' else c) :: replaceNl r := rfl

lemma pySplitAux_replaceNl (t : List Char) : ∀ acc,
    pySplitAux (replaceNl t) acc = pySplitAux t acc := by
  induction t with
  | nil => intro _; rfl
  | cons c r ih =>
    intro acc
    rw [replaceNl_cons]
    by_cases hc : c = '\n'
    · subst hc
      rw [if_pos rfl]
      by_cases ha : acc.isEmpty <;>
        simp [pySplitAux, ha, ih, show isSpaceChar ' ' = true from rfl,
          show isSpaceChar '\n' = true from rfl]
    · rw [if_neg hc]
      by_cases hs : isSpaceChar c <;> by_cases ha : acc.isEmpty <;>
        simp [pySplitAux, hs, ha, ih]

lemma pySplit_replaceNl (t : List Char) : pySplit (replaceNl t) = pySplit t :=
  pySplitAux_replaceNl t []

lemma joinSpace_length_cons (w : List Char) (ws : List (List Char)) :
    (joinSpace (w :: ws)).length ≤ w.length + 1 + (joinSpace ws).length := by
  cases ws with
  | nil => simp [joinSpace]
  | cons v vs =>
    simp [joinSpace]
    omega

lemma pySplitAux_join_length (t : List Char) : ∀ acc,
    (joinSpace (pySplitAux t acc)).length ≤ t.length + acc.length := by
  induction t with
  | nil =>
    intro acc
    by_cases ha : acc.isEmpty
    · simp [pySplitAux, ha, joinSpace]
    · rw [show pySplitAux [] acc = [acc.reverse] from by simp [pySplitAux, ha]]
      simp [joinSpace]
  | cons c r ih =>
    intro acc
    by_cases hs : isSpaceChar c
    · by_cases ha : acc.isEmpty
      · have h := ih []
        rw [show pySplitAux (c :: r) acc = pySplitAux r [] from by
          simp [pySplitAux, hs, ha]]
        simp only [List.length_cons, List.length_nil] at h ⊢
        omega
      · have h := ih []
        have hj := joinSpace_length_cons acc.reverse (pySplitAux r [])
        rw [show pySplitAux (c :: r) acc = acc.reverse :: pySplitAux r [] from by
          simp [pySplitAux, hs, ha]]
        simp only [List.length_cons, List.length_nil, List.length_reverse] at h hj ⊢
        omega
    · have h := ih (c :: acc)
      rw [show pySplitAux (c :: r) acc = pySplitAux r (c :: acc) from by
        simp [pySplitAux, hs]]
      simp only [List.length_cons] at h ⊢
      omega

lemma collapsedTrimmed_length_le (t : List Char) :
    (collapsedTrimmed t).length ≤ t.length := by
  simpa [collapsedTrimmed, pySplit] using pySplitAux_join_length t []

lemma previewOf_eq (t : List Char) :
    previewOf t = (collapsedTrimmed t).take 80
      ++ (if 80 < t.length then ellipsisMarker else []) := by
  unfold previewOf collapsedTrimmed
  rw [pySplit_replaceNl]
  by_cases h : 80 < t.length
  · simp [h]
  · simp [h]

/-- C9 counterexample: for the 81-character response `'a'` followed by 80
spaces, whitespace collapsing shrinks the preview to "a", so truncation never
happens — yet the code appends the ellipsis marker because its length test is
made on the original response text.  The record preview is "a..." where the
claim demands "a". -/
theorem preview_ellipsis_counterexample :
    (call_model (.success ('a' :: List.replicate 80 ' ') 200 5)).preview
      ≠ claimPreview ('a' :: List.replicate 80 ' ') := by
  have hcode : (call_model (.success ('a' :: List.replicate 80 ' ') 200 5)).preview
      = "a...".toList := rfl
  have hclaim : claimPreview ('a' :: List.replicate 80 ' ') = "a".toList := rfl
  rw [hcode, hclaim]
  decide

/-- C9 amended: the record preview equals the whitespace-collapsed, trimmed
response truncated to 80 characters, with the ellipsis marker appended if and
only if the original response text is longer than 80 characters; whenever the
truncation actually shortened the collapsed text the marker is present, but
the marker may also appear when collapsing alone brought the text within the
limit. -/
theorem preview_spec_amended (text : List Char) (status elapsed : Nat) :
    (call_model (.success text status elapsed)).preview
      = (collapsedTrimmed text).take 80
        ++ (if 80 < text.length then ellipsisMarker else [])
    ∧ (80 < (collapsedTrimmed text).length → 80 < text.length) := by
  constructor
  · exact previewOf_eq text
  · intro h
    exact lt_of_lt_of_le h (collapsedTrimmed_length_le text)

theorem preview_spec_amended_witness :
    ((call_model (.success (List.replicate 81 'b') 200 5)).preview
        = (collapsedTrimmed (List.replicate 81 'b')).take 80
          ++ (if 80 < (List.replicate 81 'b').length then ellipsisMarker else []))
    ∧ 80 < (List.replicate 81 'b').length :=
  ⟨(preview_spec_amended (List.replicate 81 'b') 200 5).1,
   (preview_spec_amended (List.replicate 81 'b') 200 5).2 (by decide)⟩

/-- C10: on the empty record list `calculate_stats` returns the empty mapping
(modelled as `none`) rather than raising, even though every statistic needs at
least one record. -/
theorem calculate_stats_nil : calculate_stats [] = none := rfl

/-- C6: on any record list of length exactly one, `calculate_stats` succeeds
and reports a standard deviation of 0, rather than raising (as
`statistics.stdev` would on fewer than two observations) or returning an
undefined value; the sample standard deviation formula is only evaluated
behind the `len(times) > 1` guard. -/
theorem calculate_stats_singleton_stdev (data : List RunRecord)
    (h : data.length = 1) :
    ∃ s, calculate_stats data = some s ∧ s.stdev_ms = 0 := by
  match data with
  | [r] =>
    refine ⟨_, rfl, ?_⟩
    simp [calculate_stats]

theorem calculate_stats_singleton_stdev_witness :
    (([⟨"runner", 0, "p".toList, 0, 100, 200, 10, 100⟩] : List RunRecord).length = 1)
    ∧ ∃ s, calculate_stats [⟨"runner", 0, "p".toList, 0, 100, 200, 10, 100⟩] = some s
        ∧ s.stdev_ms = 0 :=
  ⟨rfl, calculate_stats_singleton_stdev _ rfl⟩

lemma foldl_min_le_init (xs : List ℚ) : ∀ a : ℚ, xs.foldl min a ≤ a := by
  induction xs with
  | nil => intro a; simp
  | cons z zs ih =>
    intro a
    calc zs.foldl min (min a z) ≤ min a z := ih _
      _ ≤ a := min_le_left _ _

lemma foldl_min_le_mem (xs : List ℚ) : ∀ a : ℚ, ∀ y ∈ xs, xs.foldl min a ≤ y := by
  induction xs with
  | nil => intro a y hy; cases hy
  | cons z zs ih =>
    intro a y hy
    rcases List.mem_cons.mp hy with hz | hzs
    · subst hz
      calc zs.foldl min (min a y) ≤ min a y := foldl_min_le_init zs _
        _ ≤ y := min_le_right _ _
    · exact ih (min a z) y hzs

lemma foldl_min_mem (xs : List ℚ) : ∀ a : ℚ, xs.foldl min a ∈ a :: xs := by
  induction xs with
  | nil => intro a; simp
  | cons z zs ih =>
    intro a
    have h := ih (min a z)
    have hgoal : (z :: zs).foldl min a = zs.foldl min (min a z) := rfl
    rw [hgoal]
    rcases List.mem_cons.mp h with h1 | h2
    · rcases min_choice a z with hc | hc
      · exact List.mem_cons.mpr (Or.inl (h1.trans hc))
      · exact List.mem_cons.mpr (Or.inr (List.mem_cons.mpr (Or.inl (h1.trans hc))))
    · exact List.mem_cons.mpr (Or.inr (List.mem_cons.mpr (Or.inr h2)))

lemma init_le_foldl_max (xs : List ℚ) : ∀ a : ℚ, a ≤ xs.foldl max a := by
  induction xs with
  | nil => intro a; simp
  | cons z zs ih =>
    intro a
    calc a ≤ max a z := le_max_left _ _
      _ ≤ zs.foldl max (max a z) := ih _

lemma mem_le_foldl_max (xs : List ℚ) : ∀ a : ℚ, ∀ y ∈ xs, y ≤ xs.foldl max a := by
  induction xs with
  | nil => intro a y hy; cases hy
  | cons z zs ih =>
    intro a y hy
    rcases List.mem_cons.mp hy with hz | hzs
    · subst hz
      calc y ≤ max a y := le_max_right _ _
        _ ≤ zs.foldl max (max a y) := init_le_foldl_max zs _
    · exact ih (max a z) y hzs

lemma foldl_max_mem (xs : List ℚ) : ∀ a : ℚ, xs.foldl max a ∈ a :: xs := by
  induction xs with
  | nil => intro a; simp
  | cons z zs ih =>
    intro a
    have h := ih (max a z)
    have hgoal : (z :: zs).foldl max a = zs.foldl max (max a z) := rfl
    rw [hgoal]
    rcases List.mem_cons.mp h with h1 | h2
    · rcases max_choice a z with hc | hc
      · exact List.mem_cons.mpr (Or.inl (h1.trans hc))
      · exact List.mem_cons.mpr (Or.inr (List.mem_cons.mpr (Or.inl (h1.trans hc))))
    · exact List.mem_cons.mpr (Or.inr (List.mem_cons.mpr (Or.inr h2)))

lemma listMin_le_mem (x : ℚ) (xs : List ℚ) : ∀ y ∈ x :: xs, listMin (x :: xs) ≤ y := by
  intro y hy
  rcases List.mem_cons.mp hy with hz | hzs
  · subst hz; exact foldl_min_le_init xs y
  · exact foldl_min_le_mem xs x y hzs

lemma mem_le_listMax (x : ℚ) (xs : List ℚ) : ∀ y ∈ x :: xs, y ≤ listMax (x :: xs) := by
  intro y hy
  rcases List.mem_cons.mp hy with hz | hzs
  · subst hz; exact init_le_foldl_max xs y
  · exact mem_le_foldl_max xs x y hzs

lemma listMin_mem (x : ℚ) (xs : List ℚ) : listMin (x :: xs) ∈ x :: xs :=
  foldl_min_mem xs x

lemma listMax_mem (x : ℚ) (xs : List ℚ) : listMax (x :: xs) ∈ x :: xs :=
  foldl_max_mem xs x

lemma floor_le_pyRound (q : ℚ) : ⌊q⌋ ≤ pyRound q := by
  unfold pyRound
  split_ifs <;> omega

lemma pyRound_le_ceil (q : ℚ) : pyRound q ≤ ⌈q⌉ := by
  have hfc : ⌊q⌋ ≤ ⌈q⌉ := Int.floor_le_ceil q
  have key : ¬(q - ⌊q⌋ < 1/2) → ⌊q⌋ + 1 ≤ ⌈q⌉ := by
    intro h1
    push_neg at h1
    have h2 : (⌊q⌋ : ℚ) < q := by linarith
    have h3 : (⌊q⌋ : ℚ) < (⌈q⌉ : ℚ) := lt_of_lt_of_le h2 (Int.le_ceil q)
    have h4 : ⌊q⌋ < ⌈q⌉ := by exact_mod_cast h3
    omega
  unfold pyRound
  split_ifs with h1 h2 h3
  · exact hfc
  · exact key h1
  · exact hfc
  · exact key h1

lemma int_le_round2 (z : ℤ) (q : ℚ) (h : (z : ℚ) ≤ q) : (z : ℚ) ≤ round2 q := by
  have h1 : ((100 * z : ℤ) : ℚ) ≤ q * 100 := by push_cast; linarith
  have h2 : (100 * z : ℤ) ≤ ⌊q * 100⌋ := Int.le_floor.mpr h1
  have h3 : (100 * z : ℤ) ≤ pyRound (q * 100) := le_trans h2 (floor_le_pyRound _)
  have h4 : ((100 * z : ℤ) : ℚ) ≤ (pyRound (q * 100) : ℚ) := by exact_mod_cast h3
  rw [round2, le_div_iff (by norm_num : (0:ℚ) < 100)]
  push_cast at h4 ⊢
  linarith

lemma round2_le_int (q : ℚ) (z : ℤ) (h : q ≤ (z : ℚ)) : round2 q ≤ (z : ℚ) := by
  have h1 : q * 100 ≤ ((100 * z : ℤ) : ℚ) := by push_cast; linarith
  have h2 : ⌈q * 100⌉ ≤ (100 * z : ℤ) := Int.ceil_le.mpr h1
  have h3 : pyRound (q * 100) ≤ (100 * z : ℤ) := le_trans (pyRound_le_ceil _) h2
  have h4 : (pyRound (q * 100) : ℚ) ≤ ((100 * z : ℤ) : ℚ) := by exact_mod_cast h3
  rw [round2, div_le_iff (by norm_num : (0:ℚ) < 100)]
  push_cast at h4 ⊢
  linarith

lemma listMean_bounds (x : ℚ) (xs : List ℚ) :
    listMin (x :: xs) ≤ listMean (x :: xs) ∧ listMean (x :: xs) ≤ listMax (x :: xs) := by
  have hn : (0 : ℚ) < ((x :: xs).length : ℚ) := by
    have : 0 < (x :: xs).length := by simp
    exact_mod_cast this
  constructor
  · have hlow := List.card_nsmul_le_sum (x :: xs) (listMin (x :: xs)) (listMin_le_mem x xs)
    rw [nsmul_eq_mul] at hlow
    rw [listMean, le_div_iff hn]
    linarith [mul_comm (listMin (x :: xs)) (((x :: xs).length : ℚ))]
  · have hup := List.sum_le_card_nsmul (x :: xs) (listMax (x :: xs)) (mem_le_listMax x xs)
    rw [nsmul_eq_mul] at hup
    rw [listMean, div_le_iff hn]
    linarith [mul_comm (listMax (x :: xs)) (((x :: xs).length : ℚ))]

lemma pyMedian_bounds (x : ℚ) (xs : List ℚ) :
    listMin (x :: xs) ≤ pyMedian (x :: xs) ∧ pyMedian (x :: xs) ≤ listMax (x :: xs) := by
  have hperm := List.mergeSort_perm (x :: xs) (fun a b => decide (a ≤ b))
  have hslen := hperm.length_eq
  have hlen : 0 < (x :: xs).length := by simp
  have hgetD : ∀ i, i < (x :: xs).length →
      listMin (x :: xs) ≤ ((x :: xs).mergeSort (fun a b => decide (a ≤ b))).getD i 0
      ∧ ((x :: xs).mergeSort (fun a b => decide (a ≤ b))).getD i 0 ≤ listMax (x :: xs) := by
    intro i hi
    have hi' : i < ((x :: xs).mergeSort (fun a b => decide (a ≤ b))).length := by
      rw [hslen]; exact hi
    rw [List.getD_eq_getElem _ 0 hi']
    have hm : ((x :: xs).mergeSort (fun a b => decide (a ≤ b))).get ⟨i, hi'⟩ ∈ x :: xs :=
      hperm.mem_iff.mp (List.get_mem _ i hi')
    exact ⟨listMin_le_mem x xs _ hm, mem_le_listMax x xs _ hm⟩
  simp only [pyMedian]
  by_cases hpar : (x :: xs).length % 2 = 1
  · rw [if_pos hpar]
    exact hgetD _ (Nat.div_lt_self hlen one_lt_two)
  · rw [if_neg hpar]
    have h1 : (x :: xs).length / 2 < (x :: xs).length := Nat.div_lt_self hlen one_lt_two
    have h2 : (x :: xs).length / 2 - 1 < (x :: xs).length :=
      lt_of_le_of_lt (Nat.sub_le _ _) h1
    obtain ⟨ha1, ha2⟩ := hgetD _ h2
    obtain ⟨hb1, hb2⟩ := hgetD _ h1
    constructor
    · linarith
    · linarith

/-- C8: on every nonempty record list, the elapsed-time statistics reported by
`calculate_stats` satisfy `min_ms ≤ avg_ms ≤ max_ms` and
`min_ms ≤ median_ms ≤ max_ms` (the two-decimal rounding of the mean and
median cannot cross the integer-valued extremes). -/
theorem calculate_stats_order (data : List RunRecord) (h : data ≠ []) :
    ∃ s, calculate_stats data = some s
      ∧ s.min_ms ≤ s.avg_ms ∧ s.avg_ms ≤ s.max_ms
      ∧ s.min_ms ≤ s.median_ms ∧ s.median_ms ≤ s.max_ms := by
  rcases data with _ | ⟨d, ds⟩
  · exact absurd rfl h
  refine ⟨_, rfl, ?_⟩
  dsimp only
  rw [List.map_cons]
  have hmean := listMean_bounds (d.elapsed_ms : ℚ)
    (ds.map (fun r : RunRecord => ((r.elapsed_ms : ℚ))))
  have hmed := pyMedian_bounds (d.elapsed_ms : ℚ)
    (ds.map (fun r : RunRecord => ((r.elapsed_ms : ℚ))))
  have hZ : ∀ y ∈ (d.elapsed_ms : ℚ) :: ds.map (fun r : RunRecord => ((r.elapsed_ms : ℚ))),
      ∃ z : ℤ, (z : ℚ) = y := by
    intro y hy
    rcases List.mem_cons.mp hy with h1 | h2
    · exact ⟨(d.elapsed_ms : ℤ), by rw [h1]; push_cast; rfl⟩
    · obtain ⟨rm, _, hmeq⟩ := List.mem_map.mp h2
      exact ⟨(rm.elapsed_ms : ℤ), by rw [← hmeq]; push_cast; rfl⟩
  have hminZ := hZ _ (listMin_mem (d.elapsed_ms : ℚ)
    (ds.map (fun r : RunRecord => ((r.elapsed_ms : ℚ)))))
  have hmaxZ := hZ _ (listMax_mem (d.elapsed_ms : ℚ)
    (ds.map (fun r : RunRecord => ((r.elapsed_ms : ℚ)))))
  obtain ⟨zmin, hzmin⟩ := hminZ
  obtain ⟨zmax, hzmax⟩ := hmaxZ
  refine ⟨?_, ?_, ?_, ?_⟩
  · rw [← hzmin]
    exact int_le_round2 _ _ (hzmin.symm ▸ hmean.1)
  · rw [← hzmax]
    exact round2_le_int _ _ (hzmax.symm ▸ hmean.2)
  · rw [← hzmin]
    exact int_le_round2 _ _ (hzmin.symm ▸ hmed.1)
  · rw [← hzmax]
    exact round2_le_int _ _ (hzmax.symm ▸ hmed.2)

theorem calculate_stats_order_witness :
    (([⟨"runner", 0, "p".toList, 0, 100, 200, 10, 100⟩] : List RunRecord) ≠ [])
    ∧ ∃ s, calculate_stats [⟨"runner", 0, "p".toList, 0, 100, 200, 10, 100⟩] = some s
        ∧ s.min_ms ≤ s.avg_ms ∧ s.avg_ms ≤ s.max_ms
        ∧ s.min_ms ≤ s.median_ms ∧ s.median_ms ≤ s.max_ms :=
  ⟨List.cons_ne_nil _ _, calculate_stats_order _ (List.cons_ne_nil _ _)⟩

/-- C5 counterexample: the speedup ratio of the detailed report is computed
without a denominator guard, so with ollama average throughput 0 and runner
average throughput 10 it yields no finite value at all (`inf` in the original
floats, `none` here) — not the ratio 0 the claim requires of every ratio
computation. -/
theorem speedup_zero_denominator_counterexample :
    speedupFactor 10 0 ≠ some 0 ∧ speedupFactor 10 0 = none :=
  ⟨by simp [speedupFactor], by simp [speedupFactor]⟩

/-- C5 amended: the three ratios of the comparison table guard their division
and report 0 on a zero denominator without raising; the per-prompt speedup
factor of the detailed report divides unguarded, so a zero denominator
produces an IEEE infinity or NaN (no finite value) instead of 0 — though
still no division error. -/
theorem ratio_guard_amended :
    (∀ o : ℚ, time_ratio o 0 = 0)
    ∧ (∀ o : ℚ, token_ratio o 0 = 0)
    ∧ (∀ r : ℚ, tps_ratio r 0 = 0)
    ∧ (∀ r : ℚ, speedupFactor r 0 = none) := by
  refine ⟨fun o => ?_, fun o => ?_, fun r => ?_, fun r => ?_⟩ <;>
    simp [ time_ratio, token_ratio, tps_ratio, speedupFactor]

/-- C2: the backend call order of a measured iteration is fully determined by
`run_idx % 2` — runner before ollama on even indices, the reverse on odd ones;
indices with equal parity produce the identical order (no randomness), and the
record pair returned is the same (runner, ollama) pair whichever branch ran. -/
theorem alternation_by_parity :
    (∀ i : Nat, i % 2 = 0 → callOrder i = ["runner", "ollama"])
    ∧ (∀ i : Nat, i % 2 = 1 → callOrder i = ["ollama", "runner"])
    ∧ (∀ i j : Nat, i % 2 = j % 2 → callOrder i = callOrder j)
    ∧ (∀ (oracle : Oracle) (prompt : List Char) (prompt_idx run_idx : Nat),
        alternate_model_runs oracle prompt prompt_idx run_idx
          = (run_test oracle "runner" RUNNER_URL prompt run_idx prompt_idx,
             run_test oracle "ollama" OLLAMA_URL prompt run_idx prompt_idx)) := by
  refine ⟨fun i h => by simp [callOrder, h], fun i h => ?_, fun i j h => ?_, ?_⟩
  · have h0 : ¬ i % 2 = 0 := by omega
    simp [callOrder, h0]
  · simp [callOrder, h]
  · intro oracle prompt prompt_idx run_idx
    unfold alternate_model_runs
    split_ifs <;> rfl

theorem alternation_by_parity_witness :
    ((0 : Nat) % 2 = 0 ∧ callOrder 0 = ["runner", "ollama"])
    ∧ ((1 : Nat) % 2 = 1 ∧ callOrder 1 = ["ollama", "runner"])
    ∧ ((2 : Nat) % 2 = 0 % 2 ∧ callOrder 2 = callOrder 0) :=
  ⟨⟨rfl, alternation_by_parity.1 0 rfl⟩,
   ⟨rfl, alternation_by_parity.2.1 1 rfl⟩,
   ⟨rfl, alternation_by_parity.2.2.1 2 0 rfl⟩⟩

lemma groupOf_append (a b : List RunRecord) (m : String) (p : Nat) :
    groupOf (a ++ b) m p = groupOf a m p ++ groupOf b m p := by
  simp [groupOf]

lemma alternate_fst (oracle : Oracle) (prompt : List Char) (pIdx i : Nat) :
    (alternate_model_runs oracle prompt pIdx i).1
      = run_test oracle "runner" RUNNER_URL prompt i pIdx := by
  unfold alternate_model_runs
  split_ifs <;> rfl

lemma alternate_snd (oracle : Oracle) (prompt : List Char) (pIdx i : Nat) :
    (alternate_model_runs oracle prompt pIdx i).2
      = run_test oracle "ollama" OLLAMA_URL prompt i pIdx := by
  unfold alternate_model_runs
  split_ifs <;> rfl

lemma groupOf_runner_block (oracle : Oracle) (prompt : List Char)
    (pIdx p runs : Nat) :
    (groupOf ((List.range runs).map fun i =>
        (alternate_model_runs oracle prompt pIdx i).1) "runner" p).length
      = if pIdx = p then runs else 0 := by
  by_cases hp : pIdx = p <;>
    simp [groupOf, List.filter_map, alternate_fst, run_test, hp, Function.comp_def]

lemma groupOf_ollama_block (oracle : Oracle) (prompt : List Char)
    (pIdx p runs : Nat) :
    (groupOf ((List.range runs).map fun i =>
        (alternate_model_runs oracle prompt pIdx i).2) "ollama" p).length
      = if pIdx = p then runs else 0 := by
  by_cases hp : pIdx = p <;>
    simp [groupOf, List.filter_map, alternate_snd, run_test, hp, Function.comp_def]

lemma groupOf_runner_block_ollama (oracle : Oracle) (prompt : List Char)
    (pIdx p runs : Nat) :
    groupOf ((List.range runs).map fun i =>
        (alternate_model_runs oracle prompt pIdx i).1) "ollama" p = [] := by
  simp [groupOf, List.filter_map, alternate_fst, run_test, Function.comp_def]

lemma groupOf_ollama_block_runner (oracle : Oracle) (prompt : List Char)
    (pIdx p runs : Nat) :
    groupOf ((List.range runs).map fun i =>
        (alternate_model_runs oracle prompt pIdx i).2) "runner" p = [] := by
  simp [groupOf, List.filter_map, alternate_snd, run_test, Function.comp_def]

lemma mainLoop_cons (oracle : Oracle) (runs warm : Nat) (prompt_idx : Nat)
    (prompt : List Char) (rest : List (List Char)) :
    mainLoop oracle runs warm prompt_idx (prompt :: rest)
      = (((List.range runs).map fun i =>
            (alternate_model_runs oracle prompt prompt_idx i).1)
          ++ (mainLoop oracle runs warm (prompt_idx + 1) rest).1,
         ((List.range runs).map fun i =>
            (alternate_model_runs oracle prompt prompt_idx i).2)
          ++ (mainLoop oracle runs warm (prompt_idx + 1) rest).2) := rfl

lemma mainLoop_runner_count (oracle : Oracle) (runs warm : Nat) :
    ∀ (prompts : List (List Char)) (pIdx p : Nat),
      (groupOf (mainLoop oracle runs warm pIdx prompts).1 "runner" p).length
        = if pIdx ≤ p ∧ p < pIdx + prompts.length then runs else 0 := by
  intro prompts
  induction prompts with
  | nil =>
    intro pIdx p
    rw [if_neg (by simp only [List.length_nil]; omega)]
    simp [mainLoop, groupOf]
  | cons prompt rest ih =>
    intro pIdx p
    rw [mainLoop_cons]
    dsimp only
    rw [groupOf_append, List.length_append, groupOf_runner_block, ih (pIdx + 1) p,
      List.length_cons]
    split_ifs <;> omega

lemma mainLoop_ollama_count (oracle : Oracle) (runs warm : Nat) :
    ∀ (prompts : List (List Char)) (pIdx p : Nat),
      (groupOf (mainLoop oracle runs warm pIdx prompts).2 "ollama" p).length
        = if pIdx ≤ p ∧ p < pIdx + prompts.length then runs else 0 := by
  intro prompts
  induction prompts with
  | nil =>
    intro pIdx p
    rw [if_neg (by simp only [List.length_nil]; omega)]
    simp [mainLoop, groupOf]
  | cons prompt rest ih =>
    intro pIdx p
    rw [mainLoop_cons]
    dsimp only
    rw [groupOf_append, List.length_append, groupOf_ollama_block, ih (pIdx + 1) p,
      List.length_cons]
    split_ifs <;> omega

lemma mainLoop_runner_no_ollama (oracle : Oracle) (runs warm : Nat) :
    ∀ (prompts : List (List Char)) (pIdx p : Nat),
      groupOf (mainLoop oracle runs warm pIdx prompts).1 "ollama" p = [] := by
  intro prompts
  induction prompts with
  | nil => intro pIdx p; simp [mainLoop, groupOf]
  | cons prompt rest ih =>
    intro pIdx p
    rw [mainLoop_cons]
    dsimp only
    rw [groupOf_append, groupOf_runner_block_ollama, ih (pIdx + 1) p]
    rfl

lemma mainLoop_ollama_no_runner (oracle : Oracle) (runs warm : Nat) :
    ∀ (prompts : List (List Char)) (pIdx p : Nat),
      groupOf (mainLoop oracle runs warm pIdx prompts).2 "runner" p = [] := by
  intro prompts
  induction prompts with
  | nil => intro pIdx p; simp [mainLoop, groupOf]
  | cons prompt rest ih =>
    intro pIdx p
    rw [mainLoop_cons]
    dsimp only
    rw [groupOf_append, groupOf_ollama_block_runner, ih (pIdx + 1) p]
    rfl

lemma mainLoop_mem (oracle : Oracle) (runs warm : Nat) :
    ∀ (prompts : List (List Char)) (pIdx : Nat),
      ∀ r ∈ (mainLoop oracle runs warm pIdx prompts).1
          ++ (mainLoop oracle runs warm pIdx prompts).2,
        (r.model = "runner" ∨ r.model = "ollama")
        ∧ pIdx ≤ r.prompt_index ∧ r.prompt_index < pIdx + prompts.length
        ∧ r.run_index < runs := by
  intro prompts
  induction prompts with
  | nil => intro pIdx r hr; simp [mainLoop] at hr
  | cons prompt rest ih =>
    intro pIdx r hr
    rw [mainLoop_cons] at hr
    dsimp only at hr
    rw [List.mem_append] at hr
    have hblock : ∀ pr ∈ (List.range runs).map (fun i =>
          (alternate_model_runs oracle prompt pIdx i).1)
        ++ (List.range runs).map (fun i =>
          (alternate_model_runs oracle prompt pIdx i).2),
        (pr.model = "runner" ∨ pr.model = "ollama")
        ∧ pr.prompt_index = pIdx ∧ pr.run_index < runs := by
      intro pr hpr
      rw [List.mem_append] at hpr
      rcases hpr with hpr | hpr <;> obtain ⟨i, hi, hpr⟩ := List.mem_map.mp hpr
      · rw [alternate_fst] at hpr
        subst hpr
        exact ⟨Or.inl rfl, rfl, List.mem_range.mp hi⟩
      · rw [alternate_snd] at hpr
        subst hpr
        exact ⟨Or.inr rfl, rfl, List.mem_range.mp hi⟩
    rcases hr with hr | hr <;> rw [List.mem_append] at hr
    · rcases hr with hr | hr
      · obtain ⟨hm, hp, hi⟩ := hblock r (List.mem_append.mpr (Or.inl hr))
        exact ⟨hm, by omega, by simp [List.length_cons]; omega, hi⟩
      · obtain ⟨hm, hp1, hp2, hi⟩ := ih (pIdx + 1) r
          (List.mem_append.mpr (Or.inl hr))
        exact ⟨hm, by omega, by simp [List.length_cons]; omega, hi⟩
    · rcases hr with hr | hr
      · obtain ⟨hm, hp, hi⟩ := hblock r (List.mem_append.mpr (Or.inr hr))
        exact ⟨hm, by omega, by simp [List.length_cons]; omega, hi⟩
      · obtain ⟨hm, hp1, hp2, hi⟩ := ih (pIdx + 1) r
          (List.mem_append.mpr (Or.inr hr))
        exact ⟨hm, by omega, by simp [List.length_cons]; omega, hi⟩

lemma mainLoop_warm_irrelevant (oracle : Oracle) (runs : Nat) :
    ∀ (prompts : List (List Char)) (pIdx warm warm' : Nat),
      mainLoop oracle runs warm pIdx prompts
        = mainLoop oracle runs warm' pIdx prompts := by
  intro prompts
  induction prompts with
  | nil => intros; rfl
  | cons prompt rest ih =>
    intro pIdx w w'
    rw [mainLoop_cons, mainLoop_cons, ih (pIdx + 1) w w']

/-- C7: after the scheduler finishes, each (backend, prompt) group of the
accumulated results holds exactly the configured number of measured records:
for every prompt index in range, the runner group and the ollama group of the
combined record list each have `runs` records.  Every record carries one of
the two backend names, a prompt index inside the prompt list and a run index
below the configured run count — so each record lies in exactly one group and
distinct groups are disjoint by construction of their keys.  The warm-up count
has no effect whatsoever on the accumulated results: warm-up iterations
contribute no records.  -/
theorem scheduler_group_invariant (oracle : Oracle) (prompts : List (List Char))
    (runs warm p : Nat) (hp : p < prompts.length) :
    ((groupOf ((mainResults oracle prompts runs warm).1
        ++ (mainResults oracle prompts runs warm).2) "runner" p).length = runs
      ∧ (groupOf ((mainResults oracle prompts runs warm).1
        ++ (mainResults oracle prompts runs warm).2) "ollama" p).length = runs)
    ∧ (∀ r ∈ (mainResults oracle prompts runs warm).1
          ++ (mainResults oracle prompts runs warm).2,
        (r.model = "runner" ∨ r.model = "ollama")
        ∧ r.prompt_index < prompts.length ∧ r.run_index < runs)
    ∧ (∀ warm' : Nat, mainResults oracle prompts runs warm
        = mainResults oracle prompts runs warm') := by
  unfold mainResults
  refine ⟨⟨?_, ?_⟩, ?_, ?_⟩
  · rw [groupOf_append, List.length_append,
      mainLoop_runner_count oracle runs warm prompts 0 p,
      mainLoop_ollama_no_runner oracle runs warm prompts 0 p]
    rw [if_pos (by omega)]
    rfl
  · rw [groupOf_append, List.length_append,
      mainLoop_runner_no_ollama oracle runs warm prompts 0 p,
      mainLoop_ollama_count oracle runs warm prompts 0 p]
    rw [if_pos (by omega)]
    simp
  · intro r hr
    obtain ⟨hm, _, hp2, hi⟩ := mainLoop_mem oracle runs warm prompts 0 r hr
    exact ⟨hm, by omega, hi⟩
  · intro warm'
    exact mainLoop_warm_irrelevant oracle runs prompts 0 warm warm'

theorem scheduler_group_invariant_witness :
    (0 < ([("q".toList)] : List (List Char)).length)
    ∧ (((groupOf ((mainResults (fun _ _ _ _ => .failure []) ["q".toList] 2 3).1
          ++ (mainResults (fun _ _ _ _ => .failure []) ["q".toList] 2 3).2)
          "runner" 0).length = 2
        ∧ (groupOf ((mainResults (fun _ _ _ _ => .failure []) ["q".toList] 2 3).1
          ++ (mainResults (fun _ _ _ _ => .failure []) ["q".toList] 2 3).2)
          "ollama" 0).length = 2)
      ∧ (∀ r ∈ (mainResults (fun _ _ _ _ => .failure []) ["q".toList] 2 3).1
            ++ (mainResults (fun _ _ _ _ => .failure []) ["q".toList] 2 3).2,
          (r.model = "runner" ∨ r.model = "ollama")
          ∧ r.prompt_index < ([("q".toList)] : List (List Char)).length
          ∧ r.run_index < 2)
      ∧ (∀ warm' : Nat, mainResults (fun _ _ _ _ => .failure []) ["q".toList] 2 3
          = mainResults (fun _ _ _ _ => .failure []) ["q".toList] 2 warm')) :=
  ⟨by decide,
   scheduler_group_invariant (fun _ _ _ _ => .failure []) ["q".toList] 2 3 0
     (by decide)⟩

end ModelComparison
